import Mathlib

/-!
Verification model of `src/stream/successors.rs`: the `Successors` stream
combinator of the async-std fork.

The Rust code is embedded shallowly:

* `Poll` mirrors `task::Poll` (`Ready`/`Pending`).
* A future of output `Option T` is modelled by an arbitrary state type `Fut`
  together with a polling function `pollFut : Fut → Poll (Option T) × Fut`:
  polling may advance the future's internal state (in Rust the future is
  mutated in place through the pinned reference).
* The user step closure (`F: FnMut(T) -> Fut`) is modelled by a closure-state
  type `F` together with `call : F → T → F × Fut`: invoking it may mutate the
  closure state and returns the fresh future.
* `Successors` mirrors the struct (the zero-sized `PhantomData` marker is
  dropped), and `poll_next` is a line-by-line translation of the source's
  `poll_next`.  `mem::swap(this.slot, &mut next)` followed by
  `Poll::Ready(next)` returns the old slot contents and stores the step
  result in the slot; the translation does exactly that.
* To state trace properties (which step invocations happened, which futures
  were polled), `poll_next` additionally returns the list of observable
  events of the call.  The event list is ghost instrumentation: dropping it
  gives exactly the source's state transformation.
* Panics of user code and the two `Option::unwrap` calls are modelled in a
  second, fallible translation `poll_nextE` in which the closure call and the
  future poll may fault (`Option`-valued) and each `unwrap` has an explicit
  failure outcome.
-/

namespace SuccessorsStream

/-- `task::Poll`: a poll either completes with a value or is pending. -/
inductive Poll (α : Type) where
  | ready (a : α)
  | pending
deriving DecidableEq, Repr

/-- Observable events of one `poll_next` call (ghost instrumentation):
the step closure was invoked with `arg`; the stored future was polled and
returned `res`; the stored future was destroyed (`this.future.set(None)`
after it completed). -/
inductive Event (T : Type) where
  | stepCall (arg : T)
  | futPoll (res : Poll (Option T))
  | futDrop
deriving DecidableEq, Repr

/-- The `Successors` struct of the source: the step closure state, the
optional in-flight future, and the slot holding the next value to deliver.
(The `PhantomData` marker field is zero-sized and omitted.) -/
structure Successors (F Fut T : Type) where
  successor : F
  future : Option Fut
  slot : Option T
deriving DecidableEq, Repr

/-- The `successors` factory: `slot = first`, no future, step closure stored. -/
def successors {F Fut T : Type} (first : Option T) (succ : F) : Successors F Fut T :=
  { successor := succ, future := none, slot := first }

/-- Translation of `Successors::poll_next` (lines 90–108 of the source),
instrumented with the event list of the call.

Source control flow: if the slot is `None`, return `Ready(None)`; if no
future is stored, invoke the step closure on the unwrapped slot value and
store the fresh future; poll the stored future; on `Pending` return
`Pending` (the future, advanced in place, stays stored); on `Ready(next)`
clear the future, swap the slot with `next` and return the old slot
contents. -/
def poll_next {F Fut T : Type} (call : F → T → F × Fut)
    (pollFut : Fut → Poll (Option T) × Fut) (this : Successors F Fut T) :
    List (Event T) × Poll (Option T) × Successors F Fut T :=
  match this.slot with
  | none => ([], Poll.ready none, this)
  | some x =>
    -- `if this.future.is_none() { let x = this.slot.unwrap(); ... }`:
    -- `evs` are the events so far, `this1` the state after the block, and
    -- `fut` the future that line 103 unwraps out of `this1.future`.
    let (evs, this1, fut) :=
      match this.future with
      | none =>
          let (s, f) := call this.successor x
          ([Event.stepCall x], { this with successor := s, future := some f }, f)
      | some f => ([], this, f)
    let (res, fut2) := pollFut fut
    match res with
    | Poll.pending =>
        (evs ++ [Event.futPoll Poll.pending], Poll.pending,
         { this1 with future := some fut2 })
    | Poll.ready next =>
        -- `this.future.set(None); mem::swap(this.slot, &mut next); Ready(next)`
        (evs ++ [Event.futPoll (Poll.ready next), Event.futDrop],
         Poll.ready this1.slot,
         { this1 with future := none, slot := next })

/-- Drive the stream: `n` successive `poll_next` calls, collecting for each
call its event list and its result, and returning the final state. -/
def pulls {F Fut T : Type} (call : F → T → F × Fut)
    (pollFut : Fut → Poll (Option T) × Fut) :
    Nat → Successors F Fut T →
    List (List (Event T) × Poll (Option T)) × Successors F Fut T
  | 0, this => ([], this)
  | n + 1, this =>
      let r := poll_next call pollFut this
      let rest := pulls call pollFut n r.2.2
      ((r.1, r.2.1) :: rest.1, rest.2)

/-- Flat event trace of a run. -/
def trace {T : Type} (rs : List (List (Event T) × Poll (Option T))) :
    List (Event T) :=
  (rs.map Prod.fst).flatten

/-- Values delivered by a run: payloads of the `Ready(Some v)` results, in
order. -/
def delivered {T : Type} (rs : List (List (Event T) × Poll (Option T))) :
    List T :=
  rs.filterMap fun r =>
    match r.2 with
    | Poll.ready (some v) => some v
    | _ => none

/-- Arguments of the step-closure invocations in an event trace, in order. -/
def stepArgs {T : Type} (es : List (Event T)) : List T :=
  es.filterMap fun e =>
    match e with
    | Event.stepCall a => some a
    | _ => none

/-- Number of step-closure invocations in an event trace. -/
def stepCount {T : Type} (es : List (Event T)) : Nat :=
  (stepArgs es).length

/-- Scan an event trace and pair every step invocation with the final value
of the future it produced: carries the argument of the in-flight future
(`pend`), emits `(arg, result)` when that future polls `Ready`.  Returns the
completed pairs and the argument of the still-in-flight future, if any. -/
def resolvedAux {T : Type} :
    Option T → List (Event T) → List (T × Option T) × Option T
  | pend, [] => ([], pend)
  | _, Event.stepCall a :: es => resolvedAux (some a) es
  | pend, Event.futPoll Poll.pending :: es => resolvedAux pend es
  | pend, Event.futPoll (Poll.ready r) :: es =>
      match pend with
      | some a =>
          let rest := resolvedAux none es
          ((a, r) :: rest.1, rest.2)
      | none => resolvedAux none es
  | pend, Event.futDrop :: es => resolvedAux pend es

/-- The chain shape of the completed step invocations of a run seeded with
`v`: the first invocation's argument is `v`, each next invocation's argument
is the `some`-payload of the previous result, and a `none` result is last. -/
def Chained {T : Type} : T → List (T × Option T) → Prop
  | _, [] => True
  | v, (a, some w) :: rest => a = v ∧ Chained w rest
  | v, (a, none) :: rest => a = v ∧ rest = []

/-- The slot value after a run whose completed invocations were `l`, seeded
with slot `some v`: the result of the last completed invocation, or `some v`
if none completed. -/
def chainEnd {T : Type} (v : T) (l : List (T × Option T)) : Option T :=
  l.foldl (fun _ p => p.2) (some v)

/-- Coupling invariant between a stream state and the scanner state of
`resolvedAux`: a future is stored iff an invocation is in flight, and the
in-flight invocation's argument is the current slot value. -/
def Good {F Fut T : Type} (st : Successors F Fut T) (pend : Option T) : Prop :=
  (st.future.isSome ↔ pend.isSome) ∧ ∀ a, pend = some a → st.slot = some a

/-- Invariant I1/I2 of the spec: if the slot is empty no future is stored
(equivalently: a stored future implies a stored slot value). -/
def Inv {F Fut T : Type} (st : Successors F Fut T) : Prop :=
  st.slot = none → st.future = none

/-- Records of a run started on a freshly constructed stream. -/
def runRecs {F Fut T : Type} (call : F → T → F × Fut)
    (pollFut : Fut → Poll (Option T) × Fut) (first : Option T) (succ : F)
    (n : Nat) : List (List (Event T) × Poll (Option T)) :=
  (pulls call pollFut n (successors first succ)).1

/-- Final state of a run started on a freshly constructed stream. -/
def runEnd {F Fut T : Type} (call : F → T → F × Fut)
    (pollFut : Fut → Poll (Option T) × Fut) (first : Option T) (succ : F)
    (n : Nat) : Successors F Fut T :=
  (pulls call pollFut n (successors first succ)).2

/-- Completed step invocations (argument/result pairs) of a run started on a
freshly constructed stream. -/
def runResolved {F Fut T : Type} (call : F → T → F × Fut)
    (pollFut : Fut → Poll (Option T) × Fut) (first : Option T) (succ : F)
    (n : Nat) : List (T × Option T) :=
  (resolvedAux none (trace (runRecs call pollFut first succ n))).1

/-- Values delivered by a run started on a freshly constructed stream. -/
def runDelivered {F Fut T : Type} (call : F → T → F × Fut)
    (pollFut : Fut → Poll (Option T) × Fut) (first : Option T) (succ : F)
    (n : Nat) : List T :=
  delivered (runRecs call pollFut first succ n)

/-! ### Fallible translation: user panics and the two `unwrap`s

`poll_nextE` translates the same source lines, but the closure call and the
future poll may fault (`none` models a panic of user code), and the two
`Option::unwrap` calls (line 98 on the slot, line 103 on the future) are
modelled with an explicit failure outcome instead of being compiled away by
pattern matching. -/

/-- Outcome of a fallible `poll_next` call: normal completion, a user panic
unwinding with the struct in state `st`, or a failed internal `unwrap`. -/
inductive Outcome (F Fut T : Type) where
  | ok (res : Poll (Option T)) (st : Successors F Fut T)
  | fault (st : Successors F Fut T)
  | unwrapFailed
deriving DecidableEq, Repr

/-- Whether an outcome is a failed internal `unwrap`. -/
def Outcome.isUnwrapFailed {F Fut T : Type} : Outcome F Fut T → Bool
  | Outcome.unwrapFailed => true
  | _ => false

/-- Fallible translation of `poll_next`.  `callE st x = none` models the
step closure panicking while constructing the future (line 99, before
`this.future.set(Some(fut))` runs); `pollFutE fut = none` models the future
panicking while being polled (line 103, with the future still stored). -/
def poll_nextE {F Fut T : Type} (callE : F → T → Option (F × Fut))
    (pollFutE : Fut → Option (Poll (Option T) × Fut))
    (this : Successors F Fut T) : Outcome F Fut T :=
  if this.slot.isNone then Outcome.ok (Poll.ready none) this
  else
    -- `if this.future.is_none() { let x = this.slot.unwrap(); ... }`
    let stage1 : Outcome F Fut T ⊕ Successors F Fut T :=
      if this.future.isNone then
        match this.slot with
        | none => Sum.inl Outcome.unwrapFailed          -- line 98 unwrap of the slot
        | some x =>
          match callE this.successor x with
          | none => Sum.inl (Outcome.fault this)        -- panic in `(this.successor)(x)`
          | some (s, f) => Sum.inr { this with successor := s, future := some f }
      else Sum.inr this
    match stage1 with
    | Sum.inl o => o
    | Sum.inr this1 =>
      match this1.future with
      | none => Outcome.unwrapFailed                    -- line 103 unwrap of the future
      | some fut =>
        match pollFutE fut with
        | none => Outcome.fault this1                   -- panic inside `poll`
        | some (Poll.pending, fut2) =>
            Outcome.ok Poll.pending { this1 with future := some fut2 }
        | some (Poll.ready next, _) =>
            Outcome.ok (Poll.ready this1.slot)
              { this1 with future := none, slot := next }

/-! ### Global future-identity events

To state that no future is ever polled after completing, per-call events are
globalized: each step invocation creates a future with a fresh id, and polls
and drops are attributed to the id of the currently stored future. -/

/-- Globalized events: future with id `id` was created / polled / dropped. -/
inductive GEvent (T : Type) where
  | create (id : Nat)
  | fpoll (id : Nat) (res : Poll (Option T))
  | fdrop (id : Nat)
deriving DecidableEq, Repr

/-- Attribute ids to an event trace: carries the id of the stored future
(`live`) and the next fresh id (`nx`); returns the globalized trace and the
final `live`/`nx`. -/
def globalizeAux {T : Type} :
    Option Nat → Nat → List (Event T) → List (GEvent T) × Option Nat × Nat
  | live, nx, [] => ([], live, nx)
  | _, nx, Event.stepCall _ :: es =>
      let rest := globalizeAux (some nx) (nx + 1) es
      (GEvent.create nx :: rest.1, rest.2)
  | live, nx, Event.futPoll r :: es =>
      let rest := globalizeAux live nx es
      (GEvent.fpoll (live.getD 0) r :: rest.1, rest.2)
  | live, nx, Event.futDrop :: es =>
      let rest := globalizeAux none nx es
      (GEvent.fdrop (live.getD 0) :: rest.1, rest.2)

/-- Globalized trace of a run started on a freshly constructed stream. -/
def runGlobal {F Fut T : Type} (call : F → T → F × Fut)
    (pollFut : Fut → Poll (Option T) × Fut) (first : Option T) (succ : F)
    (n : Nat) : List (GEvent T) :=
  (globalizeAux none 0 (trace (runRecs call pollFut first succ n))).1

/-- Number of future creations in a globalized trace. -/
def creates {T : Type} (gs : List (GEvent T)) : Nat :=
  gs.countP fun e =>
    match e with
    | GEvent.create _ => true
    | _ => false

/-- Number of future destructions in a globalized trace. -/
def fdrops {T : Type} (gs : List (GEvent T)) : Nat :=
  gs.countP fun e =>
    match e with
    | GEvent.fdrop _ => true
    | _ => false

/-- No future is polled after one of its polls returned `Ready`: the trace
has no (not necessarily contiguous) subsequence consisting of a ready poll
of some id followed by another poll of the same id. -/
def NoRepoll {T : Type} (gs : List (GEvent T)) : Prop :=
  ∀ (id : Nat) (r : Option T) (res : Poll (Option T)),
    ¬ List.Sublist [GEvent.fpoll id (Poll.ready r), GEvent.fpoll id res] gs

/-- At every point of the trace, the number of futures created so far
exceeds the number destroyed by at most one (and never goes negative):
at most one future is in flight at any time. -/
def AtMostOneAlive {T : Type} (gs : List (GEvent T)) : Prop :=
  ∀ k : Nat, fdrops (gs.take k) ≤ creates (gs.take k)
    ∧ creates (gs.take k) ≤ fdrops (gs.take k) + 1

/-- The future id an event refers to. -/
def gid {T : Type} : GEvent T → Nat
  | GEvent.create i => i
  | GEvent.fpoll i _ => i
  | GEvent.fdrop i => i

/-- Alive-count bound relative to a boundary count `a` (the number of
futures alive when the trace starts): at every point of the trace, between
zero and one future is alive. -/
def AliveBoundFrom {T : Type} (a : Nat) (gs : List (GEvent T)) : Prop :=
  ∀ k : Nat, fdrops (gs.take k) ≤ a + creates (gs.take k)
    ∧ a + creates (gs.take k) ≤ fdrops (gs.take k) + 1

/-- Well-formedness of the globalized suffix trace produced from scanner
state `(live, nx)`: no future is polled after polling ready, the alive
count stays between zero and one, and every event refers either to the
future alive at the boundary or to one created later (id at least `nx`). -/
def TraceOk {T : Type} (live : Option Nat) (nx : Nat)
    (gs : List (GEvent T)) : Prop :=
  NoRepoll gs
  ∧ AliveBoundFrom (if live.isSome then 1 else 0) gs
  ∧ ∀ e ∈ gs, live = some (gid e) ∨ nx ≤ gid e

/-! ### A concrete executable future model (for witnesses)

A deterministic future that reports `Pending` a fixed number of times and
then completes: state `(d, r)` polls `Pending` while `d > 0`, decrementing
`d`, and `Ready r` once `d = 0`.  A step closure is a plain function
`T → DFut T` (stateless, so `dcall` threads it unchanged). -/

/-- Delay-model future: `d` remaining pending polls, then result `r`. -/
def DFut (T : Type) : Type := Nat × Option T

/-- Poll a delay-model future. -/
def dpoll {T : Type} : DFut T → Poll (Option T) × DFut T
  | (0, r) => (Poll.ready r, (0, r))
  | (d + 1, r) => (Poll.pending, (d, r))

/-- Invoke a stateless step closure `T → DFut T`. -/
def dcall {T : Type} (f : T → DFut T) (x : T) : (T → DFut T) × DFut T :=
  (f, f x)

/-- The step of scenario T1 of the spec: immediately `Some (v + 1)`. -/
def stepInc : Nat → DFut Nat := fun v => (0, some (v + 1))

/-- The step of scenario T3 of the spec: immediately
`Some (v + 1)` while `v < 3`, then `None`. -/
def stepTrunc : Nat → DFut Nat := fun v => (0, if v < 3 then some (v + 1) else none)

/-- A one-cutoff variant of `stepTrunc`: `Some 1` on input `0`, `None`
otherwise. -/
def stepOnce : Nat → DFut Nat := fun v => (0, if v = 0 then some 1 else none)

/-- A step whose future suspends once before completing with `Some (v + 1)`. -/
def stepSlow : Nat → DFut Nat := fun v => (1, some (v + 1))

/-! ## Per-call shape lemmas

`poll_next` has exactly five behaviours, depending on the slot, the stored
future, and the poll result. -/

variable {F Fut T : Type}

/-- Terminal state: empty slot, `Ready(None)`, nothing changes. -/
theorem poll_next_slot_none (call : F → T → F × Fut)
    (pollFut : Fut → Poll (Option T) × Fut) {this : Successors F Fut T}
    (hs : this.slot = none) :
    poll_next call pollFut this = ([], Poll.ready none, this) := by
  simp only [poll_next, hs]

/-- Fresh future, poll pending: the freshly built future stays stored. -/
theorem poll_next_fresh_pending (call : F → T → F × Fut)
    (pollFut : Fut → Poll (Option T) × Fut) {this : Successors F Fut T}
    {x : T} {s : F} {f f2 : Fut}
    (hs : this.slot = some x) (hf : this.future = none)
    (hc : call this.successor x = (s, f))
    (hp : pollFut f = (Poll.pending, f2)) :
    poll_next call pollFut this =
      ([Event.stepCall x, Event.futPoll Poll.pending], Poll.pending,
       { this with successor := s, future := some f2 }) := by
  simp only [poll_next, hs, hf, hc, hp]
  rfl

/-- Fresh future, poll ready: deliver the old slot, store the result. -/
theorem poll_next_fresh_ready (call : F → T → F × Fut)
    (pollFut : Fut → Poll (Option T) × Fut) {this : Successors F Fut T}
    {x : T} {s : F} {f f2 : Fut} {next : Option T}
    (hs : this.slot = some x) (hf : this.future = none)
    (hc : call this.successor x = (s, f))
    (hp : pollFut f = (Poll.ready next, f2)) :
    poll_next call pollFut this =
      ([Event.stepCall x, Event.futPoll (Poll.ready next), Event.futDrop],
       Poll.ready (some x),
       { this with successor := s, future := none, slot := next }) := by
  simp only [poll_next, hs, hf, hc, hp]
  rfl

/-- Stored future, poll pending: the advanced future stays stored. -/
theorem poll_next_stored_pending (call : F → T → F × Fut)
    (pollFut : Fut → Poll (Option T) × Fut) {this : Successors F Fut T}
    {x : T} {f f2 : Fut}
    (hs : this.slot = some x) (hf : this.future = some f)
    (hp : pollFut f = (Poll.pending, f2)) :
    poll_next call pollFut this =
      ([Event.futPoll Poll.pending], Poll.pending,
       { this with future := some f2 }) := by
  simp only [poll_next, hs, hf, hp]
  rfl

/-- Stored future, poll ready: deliver the old slot, store the result. -/
theorem poll_next_stored_ready (call : F → T → F × Fut)
    (pollFut : Fut → Poll (Option T) × Fut) {this : Successors F Fut T}
    {x : T} {f f2 : Fut} {next : Option T}
    (hs : this.slot = some x) (hf : this.future = some f)
    (hp : pollFut f = (Poll.ready next, f2)) :
    poll_next call pollFut this =
      ([Event.futPoll (Poll.ready next), Event.futDrop], Poll.ready (some x),
       { this with future := none, slot := next }) := by
  simp only [poll_next, hs, hf, hp]
  rfl

/-! ## Helper lemmas on runs and scanners -/

theorem pulls_succ (call : F → T → F × Fut)
    (pollFut : Fut → Poll (Option T) × Fut) (n : Nat)
    (st : Successors F Fut T) :
    pulls call pollFut (n + 1) st =
      (((poll_next call pollFut st).1, (poll_next call pollFut st).2.1) ::
          (pulls call pollFut n (poll_next call pollFut st).2.2).1,
       (pulls call pollFut n (poll_next call pollFut st).2.2).2) := by
  rfl

theorem trace_nil : trace ([] : List (List (Event T) × Poll (Option T))) = [] := rfl

theorem trace_cons (r : List (Event T) × Poll (Option T))
    (rs : List (List (Event T) × Poll (Option T))) :
    trace (r :: rs) = r.1 ++ trace rs := by
  simp [trace]

theorem trace_replicate (n : Nat) (res : Poll (Option T)) :
    trace (List.replicate n (([] : List (Event T)), res)) = [] := by
  induction n with
  | zero => rfl
  | succ n ih => simpa [List.replicate_succ, trace_cons] using ih

theorem delivered_cons (r : List (Event T) × Poll (Option T))
    (rs : List (List (Event T) × Poll (Option T))) :
    delivered (r :: rs) =
      (match r.2 with
       | Poll.ready (some v) => v :: delivered rs
       | _ => delivered rs) := by
  simp only [delivered, List.filterMap_cons]
  match r with
  | (evs, Poll.ready (some v)) => rfl
  | (evs, Poll.ready none) => rfl
  | (evs, Poll.pending) => rfl

theorem resolvedAux_append (l1 l2 : List (Event T)) :
    ∀ pend : Option T,
      resolvedAux pend (l1 ++ l2) =
        ((resolvedAux pend l1).1 ++ (resolvedAux (resolvedAux pend l1).2 l2).1,
         (resolvedAux (resolvedAux pend l1).2 l2).2) := by
  induction l1 with
  | nil => intro pend; simp [resolvedAux]
  | cons e es ih =>
    intro pend
    match e with
    | Event.stepCall a => simpa [resolvedAux] using ih (some a)
    | Event.futPoll Poll.pending => simpa [resolvedAux] using ih pend
    | Event.futPoll (Poll.ready r) =>
      match pend with
      | some a => simp [resolvedAux, ih none]
      | none => simpa [resolvedAux] using ih none
    | Event.futDrop => simpa [resolvedAux] using ih pend

@[simp]
theorem resolvedAux_stepCall (pend : Option T) (a : T) (es : List (Event T)) :
    resolvedAux pend (Event.stepCall a :: es) = resolvedAux (some a) es := rfl

@[simp]
theorem resolvedAux_fpoll_pending (pend : Option T) (es : List (Event T)) :
    resolvedAux pend (Event.futPoll Poll.pending :: es) = resolvedAux pend es := rfl

@[simp]
theorem resolvedAux_fpoll_ready (a : T) (r : Option T) (es : List (Event T)) :
    resolvedAux (some a) (Event.futPoll (Poll.ready r) :: es)
      = ((a, r) :: (resolvedAux none es).1, (resolvedAux none es).2) := rfl

@[simp]
theorem resolvedAux_fdrop (pend : Option T) (es : List (Event T)) :
    resolvedAux pend (Event.futDrop :: es) = resolvedAux pend es := rfl

@[simp]
theorem resolvedAux_nil (pend : Option T) :
    resolvedAux pend ([] : List (Event T)) = ([], pend) := rfl

@[simp]
theorem delivered_ready_some (evs : List (Event T)) (v : T)
    (rs : List (List (Event T) × Poll (Option T))) :
    delivered ((evs, Poll.ready (some v)) :: rs) = v :: delivered rs := rfl

@[simp]
theorem delivered_ready_none (evs : List (Event T))
    (rs : List (List (Event T) × Poll (Option T))) :
    delivered ((evs, Poll.ready none) :: rs) = delivered rs := rfl

@[simp]
theorem delivered_pending (evs : List (Event T))
    (rs : List (List (Event T) × Poll (Option T))) :
    delivered ((evs, Poll.pending) :: rs) = delivered rs := rfl

@[simp]
theorem stepCount_nil : stepCount ([] : List (Event T)) = 0 := rfl

@[simp]
theorem stepCount_stepCall (a : T) (es : List (Event T)) :
    stepCount (Event.stepCall a :: es) = stepCount es + 1 := by
  simp [stepCount, stepArgs, Nat.add_comm]

@[simp]
theorem stepCount_futPoll (r : Poll (Option T)) (es : List (Event T)) :
    stepCount (Event.futPoll r :: es) = stepCount es := rfl

@[simp]
theorem stepCount_futDrop (es : List (Event T)) :
    stepCount (Event.futDrop :: es) = stepCount es := rfl

theorem chainEnd_cons_some (v w : T) (a : T) (l : List (T × Option T)) :
    chainEnd v ((a, some w) :: l) = chainEnd w l := rfl

theorem chainEnd_cons (v : T) (a : T) (r : Option T) (l : List (T × Option T)) :
    chainEnd v ((a, r) :: l) = l.foldl (fun _ p => p.2) r := rfl

/-! ## The central run lemma

By induction on the number of pulls: the coupling invariant `Good` is
maintained, the delivered values are exactly the arguments of the completed
step invocations, from a live slot the completed invocations form the chain
of the spec and the final slot is the chain's end, and from an empty slot
every pull is a silent `Ready(None)`. -/

theorem pulls_spec (call : F → T → F × Fut)
    (pollFut : Fut → Poll (Option T) × Fut) :
    ∀ (n : Nat) (st : Successors F Fut T) (pend : Option T), Good st pend →
      Good (pulls call pollFut n st).2
          (resolvedAux pend (trace (pulls call pollFut n st).1)).2
      ∧ delivered (pulls call pollFut n st).1
          = ((resolvedAux pend (trace (pulls call pollFut n st).1)).1.map Prod.fst)
      ∧ (∀ v, st.slot = some v →
            Chained v (resolvedAux pend (trace (pulls call pollFut n st).1)).1
            ∧ (pulls call pollFut n st).2.slot
                = chainEnd v (resolvedAux pend (trace (pulls call pollFut n st).1)).1)
      ∧ (st.slot = none →
            (pulls call pollFut n st).1 = List.replicate n ([], Poll.ready none)
            ∧ (pulls call pollFut n st).2 = st) := by
  intro n
  induction n with
  | zero =>
    intro st pend hg
    exact ⟨hg, rfl, fun v hv => ⟨trivial, hv⟩, fun _ => ⟨rfl, rfl⟩⟩
  | succ n ih =>
    intro st pend hg
    match hslot : st.slot with
    | none =>
      rw [pulls_succ, poll_next_slot_none call pollFut hslot]
      obtain ⟨g1, g2, _, g4⟩ := ih st pend hg
      obtain ⟨e1, e2⟩ := g4 hslot
      refine ⟨?_, ?_, ?_, ?_⟩
      · simpa [trace_cons] using g1
      · simpa [trace_cons] using g2
      · intro v hv; exact absurd hv (by simp)
      · intro _
        exact ⟨by simp [e1, List.replicate_succ], e2⟩
    | some x =>
      match hfut : st.future with
      | none =>
        match hc : call st.successor x with
        | (s, f) =>
          match hp : pollFut f with
          | (Poll.pending, f2) =>
            rw [pulls_succ, poll_next_fresh_pending call pollFut hslot hfut hc hp]
            set st' : Successors F Fut T :=
              { st with successor := s, future := some f2 } with hst'
            have hslot' : st'.slot = some x := by simp [hst', hslot]
            have hg' : Good st' (some x) := by
              refine ⟨by simp [hst'], fun a ha => ?_⟩
              rw [hslot']; exact ha
            obtain ⟨g1, g2, g3, _⟩ := ih st' (some x) hg'
            obtain ⟨c1, c2⟩ := g3 x hslot'
            refine ⟨?_, ?_, ?_, ?_⟩
            · simpa [trace_cons] using g1
            · simpa [trace_cons] using g2
            · intro v hv
              obtain rfl : x = v := Option.some_inj.mp hv
              exact ⟨by simpa [trace_cons] using c1, by simpa [trace_cons] using c2⟩
            · intro hcontr; exact absurd hcontr (by simp)
          | (Poll.ready next, f2) =>
            rw [pulls_succ, poll_next_fresh_ready call pollFut hslot hfut hc hp]
            set st' : Successors F Fut T :=
              { st with successor := s, future := none, slot := next } with hst'
            have hslot' : st'.slot = next := by simp [hst']
            have hg' : Good st' none :=
              ⟨by simp [hst'], fun a ha => absurd ha (by simp)⟩
            obtain ⟨g1, g2, g3, g4⟩ := ih st' none hg'
            refine ⟨?_, ?_, ?_, ?_⟩
            · simpa [trace_cons] using g1
            · simpa [trace_cons] using g2
            · intro v hv
              obtain rfl : x = v := Option.some_inj.mp hv
              match hnext : next, hslot' with
              | some w, hslot' =>
                obtain ⟨c1, c2⟩ := g3 w hslot'
                constructor
                · simp only [trace_cons, List.cons_append, List.nil_append,
                    resolvedAux_stepCall, resolvedAux_fpoll_ready, resolvedAux_fdrop]
                  exact ⟨rfl, c1⟩
                · simp only [trace_cons, List.cons_append, List.nil_append,
                    resolvedAux_stepCall, resolvedAux_fpoll_ready, resolvedAux_fdrop,
                    chainEnd_cons_some]
                  exact c2
              | none, hslot' =>
                obtain ⟨e1, e2⟩ := g4 hslot'
                have htr : trace (pulls call pollFut n st').1 = [] := by
                  rw [e1]; exact trace_replicate n (Poll.ready none)
                constructor
                · simp only [trace_cons, List.cons_append, List.nil_append,
                    resolvedAux_stepCall, resolvedAux_fpoll_ready, resolvedAux_fdrop, htr,
                    resolvedAux_nil]
                  exact ⟨rfl, rfl⟩
                · simp only [trace_cons, List.cons_append, List.nil_append,
                    resolvedAux_stepCall, resolvedAux_fpoll_ready, resolvedAux_fdrop, htr,
                    resolvedAux_nil, e2]
                  simp [hslot', hnext, chainEnd]
            · intro hcontr; exact absurd hcontr (by simp)
      | some f =>
        obtain ⟨a, hpend⟩ : ∃ a, pend = some a :=
          Option.isSome_iff_exists.mp (hg.1.mp (by simp [hfut]))
        have h1 : st.slot = some a := hg.2 a hpend
        rw [hslot] at h1
        obtain rfl : x = a := Option.some_inj.mp h1
        subst hpend
        match hp : pollFut f with
        | (Poll.pending, f2) =>
          rw [pulls_succ, poll_next_stored_pending call pollFut hslot hfut hp]
          set st' : Successors F Fut T := { st with future := some f2 } with hst'
          have hslot' : st'.slot = some x := by simp [hst', hslot]
          have hg' : Good st' (some x) := by
            refine ⟨by simp [hst'], fun b hb => ?_⟩
            rw [hslot']; exact hb
          obtain ⟨g1, g2, g3, _⟩ := ih st' (some x) hg'
          obtain ⟨c1, c2⟩ := g3 x hslot'
          refine ⟨?_, ?_, ?_, ?_⟩
          · simpa [trace_cons] using g1
          · simpa [trace_cons] using g2
          · intro v hv
            obtain rfl : x = v := Option.some_inj.mp hv
            exact ⟨by simpa [trace_cons] using c1, by simpa [trace_cons] using c2⟩
          · intro hcontr; exact absurd hcontr (by simp)
        | (Poll.ready next, f2) =>
          rw [pulls_succ, poll_next_stored_ready call pollFut hslot hfut hp]
          set st' : Successors F Fut T :=
            { st with future := none, slot := next } with hst'
          have hslot' : st'.slot = next := by simp [hst']
          have hg' : Good st' none :=
            ⟨by simp [hst'], fun b hb => absurd hb (by simp)⟩
          obtain ⟨g1, g2, g3, g4⟩ := ih st' none hg'
          refine ⟨?_, ?_, ?_, ?_⟩
          · simpa [trace_cons] using g1
          · simpa [trace_cons] using g2
          · intro v hv
            obtain rfl : x = v := Option.some_inj.mp hv
            match hnext : next, hslot' with
            | some w, hslot' =>
              obtain ⟨c1, c2⟩ := g3 w hslot'
              constructor
              · simp only [trace_cons, List.cons_append, List.nil_append,
                  resolvedAux_fpoll_ready, resolvedAux_fdrop]
                exact ⟨rfl, c1⟩
              · simp only [trace_cons, List.cons_append, List.nil_append,
                  resolvedAux_fpoll_ready, resolvedAux_fdrop, chainEnd_cons_some]
                exact c2
            | none, hslot' =>
              obtain ⟨e1, e2⟩ := g4 hslot'
              have htr : trace (pulls call pollFut n st').1 = [] := by
                rw [e1]; exact trace_replicate n (Poll.ready none)
              constructor
              · simp only [trace_cons, List.cons_append, List.nil_append,
                  resolvedAux_fpoll_ready, resolvedAux_fdrop, htr, resolvedAux_nil]
                exact ⟨rfl, rfl⟩
              · simp only [trace_cons, List.cons_append, List.nil_append,
                  resolvedAux_fpoll_ready, resolvedAux_fdrop, htr, resolvedAux_nil, e2]
                simp [hslot', hnext, chainEnd]
          · intro hcontr; exact absurd hcontr (by simp)

/-- Counting analogue of `pulls_spec`: the number of step invocations in a
run equals the number of completed invocations plus one for an invocation
still in flight (the boundary terms account for an invocation already in
flight at the start). -/
theorem pulls_count (call : F → T → F × Fut)
    (pollFut : Fut → Poll (Option T) × Fut) :
    ∀ (n : Nat) (st : Successors F Fut T) (pend : Option T), Good st pend →
      stepCount (trace (pulls call pollFut n st).1)
          + (if pend.isSome then 1 else 0)
        = (resolvedAux pend (trace (pulls call pollFut n st).1)).1.length
          + (if (resolvedAux pend (trace (pulls call pollFut n st).1)).2.isSome
             then 1 else 0) := by
  intro n
  induction n with
  | zero => intro st pend _; rfl
  | succ n ih =>
    intro st pend hg
    match hslot : st.slot with
    | none =>
      rw [pulls_succ, poll_next_slot_none call pollFut hslot]
      simpa [trace_cons] using ih st pend hg
    | some x =>
      match hfut : st.future with
      | none =>
        have hpend : pend = none := by
          rcases pend with _ | a
          · rfl
          · have := hg.1.mpr (by simp)
            rw [hfut] at this
            exact absurd this (by simp)
        subst hpend
        match hc : call st.successor x with
        | (s, f) =>
          match hp : pollFut f with
          | (Poll.pending, f2) =>
            rw [pulls_succ, poll_next_fresh_pending call pollFut hslot hfut hc hp]
            set st' : Successors F Fut T :=
              { st with successor := s, future := some f2 } with hst'
            have hg' : Good st' (some x) :=
              ⟨by simp [hst'], fun a ha => by
                simp [hst', hslot, Option.some_inj.mp ha]⟩
            have := ih st' (some x) hg'
            simp [trace_cons] at this ⊢
            omega
          | (Poll.ready next, f2) =>
            rw [pulls_succ, poll_next_fresh_ready call pollFut hslot hfut hc hp]
            set st' : Successors F Fut T :=
              { st with successor := s, future := none, slot := next } with hst'
            have hg' : Good st' none :=
              ⟨by simp [hst'], fun a ha => absurd ha (by simp)⟩
            have := ih st' none hg'
            simp [trace_cons] at this ⊢
            omega
      | some f =>
        obtain ⟨a, hpend⟩ : ∃ a, pend = some a :=
          Option.isSome_iff_exists.mp (hg.1.mp (by simp [hfut]))
        have h1 : st.slot = some a := hg.2 a hpend
        rw [hslot] at h1
        obtain rfl : x = a := Option.some_inj.mp h1
        subst hpend
        match hp : pollFut f with
        | (Poll.pending, f2) =>
          rw [pulls_succ, poll_next_stored_pending call pollFut hslot hfut hp]
          set st' : Successors F Fut T := { st with future := some f2 } with hst'
          have hg' : Good st' (some x) :=
            ⟨by simp [hst'], fun b hb => by
              simp [hst', hslot, Option.some_inj.mp hb]⟩
          have := ih st' (some x) hg'
          simp [trace_cons] at this ⊢
          omega
        | (Poll.ready next, f2) =>
          rw [pulls_succ, poll_next_stored_ready call pollFut hslot hfut hp]
          set st' : Successors F Fut T :=
            { st with future := none, slot := next } with hst'
          have hg' : Good st' none :=
            ⟨by simp [hst'], fun b hb => absurd hb (by simp)⟩
          have := ih st' none hg'
          simp [trace_cons] at this ⊢
          omega

/-- The freshly constructed stream satisfies the coupling invariant with an
empty scanner state. -/
theorem good_init (first : Option T) (succ : F) :
    Good (successors first succ : Successors F Fut T) none :=
  ⟨by simp [successors], fun a ha => absurd ha (by simp)⟩

/-! ## Consequences of the chain shape -/

/-- In a chained invocation list, the first invocation's argument is the
seed. -/
theorem chained_head {v : T} {l : List (T × Option T)} (hc : Chained v l)
    {p : T × Option T} (hp : l[0]? = some p) : p.1 = v := by
  match l, hp with
  | (a, some w) :: rest, hp =>
    obtain rfl : (a, some w) = p := by simpa using hp
    exact hc.1
  | (a, none) :: rest, hp =>
    obtain rfl : (a, none) = p := by simpa using hp
    exact hc.1

/-- In a chained invocation list, each invocation's result is `some` of the
next invocation's argument. -/
theorem chained_link {v : T} {l : List (T × Option T)} (hc : Chained v l) :
    ∀ (k : Nat) (p q : T × Option T),
      l[k]? = some p → l[k + 1]? = some q → p.2 = some q.1 := by
  induction l generalizing v with
  | nil => intro k p q hp _; simp at hp
  | cons hd rest ih =>
    intro k p q hp hq
    match hd, hc with
    | (a, some w), hc =>
      match k, hp, hq with
      | 0, hp, hq =>
        obtain rfl : (a, some w) = p := by simpa using hp
        simp only [List.getElem?_cons_succ] at hq
        exact congrArg some (chained_head hc.2 hq).symm
      | k + 1, hp, hq =>
        simp only [List.getElem?_cons_succ] at hp hq
        exact ih hc.2 k p q hp hq
    | (a, none), hc =>
      match k, hq with
      | 0, hq =>
        rw [List.getElem?_cons_succ, hc.2] at hq
        simp at hq
      | k + 1, hq =>
        rw [List.getElem?_cons_succ, hc.2] at hq
        simp at hq

/-- In a chained invocation list, an invocation with result `none` is the
last one. -/
theorem chained_none_last {v : T} {l : List (T × Option T)} (hc : Chained v l) :
    ∀ (k : Nat) (a : T), l[k]? = some (a, none) → l.length = k + 1 := by
  induction l generalizing v with
  | nil => intro k a h; simp at h
  | cons hd rest ih =>
    intro k a h
    match hd, hc with
    | (b, some w), hc =>
      match k, h with
      | 0, h => simp at h
      | k + 1, h =>
        rw [List.getElem?_cons_succ] at h
        rw [List.length_cons, ih hc.2 k a h]
    | (b, none), hc =>
      match k, h with
      | 0, h => simp [hc.2]
      | k + 1, h =>
        rw [List.getElem?_cons_succ, hc.2] at h
        simp at h

/-- A stream whose slot is empty answers every pull with `Ready(None)` and
never changes state nor produces events. -/
theorem terminal_forever (call : F → T → F × Fut)
    (pollFut : Fut → Poll (Option T) × Fut) (st : Successors F Fut T)
    (hs : st.slot = none) :
    ∀ m, pulls call pollFut m st
      = (List.replicate m (([] : List (Event T)), Poll.ready none), st) := by
  intro m
  induction m with
  | zero => rfl
  | succ m ih =>
    rw [pulls_succ, poll_next_slot_none call pollFut hs, ih,
      List.replicate_succ]

/-- The accumulator of `chainEnd` is irrelevant on a non-empty list: the
fold returns the last result. -/
theorem foldl_snd_last (l : List (T × Option T)) (p : T × Option T)
    (h : l.getLast? = some p) :
    ∀ i : Option T, l.foldl (fun _ q => q.2) i = p.2 := by
  induction l with
  | nil => simp at h
  | cons hd rest ih =>
    intro i
    match rest, h with
    | [], h =>
      obtain rfl : hd = p := by simpa using h
      rfl
    | q :: rest', h =>
      rw [List.getLast?_cons_cons] at h
      exact ih h hd.2

theorem chainEnd_eq_last (v : T) (l : List (T × Option T)) (p : T × Option T)
    (h : l.getLast? = some p) : chainEnd v l = p.2 :=
  foldl_snd_last l p h (some v)

/-! ## Claim theorems -/

/-- C1.  For every seed `some v0` and every step function (any closure state,
any future semantics), over any number of pulls: the delivered values are
exactly the arguments of the completed step invocations in order (no
reordering, duplication or skipping), those invocations form the chain
seeded at `v0`, the first delivered element is `v0`, and the `(k+1)`-th
delivered element is the `some` payload of the step invocation whose
argument was the `k`-th delivered element. -/
theorem claim1_chain (call : F → T → F × Fut)
    (pollFut : Fut → Poll (Option T) × Fut) (v0 : T) (succ : F) (N : Nat) :
    runDelivered call pollFut (some v0) succ N
        = (runResolved call pollFut (some v0) succ N).map Prod.fst
    ∧ Chained v0 (runResolved call pollFut (some v0) succ N)
    ∧ (runDelivered call pollFut (some v0) succ N ≠ [] →
        (runDelivered call pollFut (some v0) succ N)[0]? = some v0)
    ∧ (∀ k a b, (runDelivered call pollFut (some v0) succ N)[k]? = some a →
        (runDelivered call pollFut (some v0) succ N)[k + 1]? = some b →
        (runResolved call pollFut (some v0) succ N)[k]? = some (a, some b)) := by
  obtain ⟨-, g2, g3, -⟩ :=
    pulls_spec call pollFut N (successors (some v0) succ) none (good_init _ _)
  obtain ⟨hchain, -⟩ := g3 v0 rfl
  have hmap : runDelivered call pollFut (some v0) succ N
      = (runResolved call pollFut (some v0) succ N).map Prod.fst := g2
  refine ⟨hmap, hchain, ?_, ?_⟩
  · intro hne
    have hlen : 0 < (runResolved call pollFut (some v0) succ N).length := by
      by_contra hle
      have : runResolved call pollFut (some v0) succ N = [] := by
        cases hios : runResolved call pollFut (some v0) succ N with
        | nil => rfl
        | cons a l => rw [hios] at hle; simp at hle
      exact hne (by rw [hmap, this]; rfl)
    have hget : (runResolved call pollFut (some v0) succ N)[0]?
        = some ((runResolved call pollFut (some v0) succ N)[0]) :=
      List.getElem?_eq_getElem hlen
    rw [hmap, List.getElem?_map, hget]
    exact congrArg some (chained_head hchain hget)
  · intro k a b ha hb
    rw [hmap, List.getElem?_map] at ha hb
    obtain ⟨p, hp, hpa⟩ := Option.map_eq_some'.mp ha
    obtain ⟨q, hq, hqb⟩ := Option.map_eq_some'.mp hb
    have hlink := chained_link hchain k p q hp hq
    have hp2 : p.2 = some b := by rw [hlink, hqb]
    rw [hp, ← hpa, ← hp2, Prod.mk.eta]

/-- C2.  If the `(k+1)`-th completed step invocation of a run from seed
`some v0` returned `None`, then it was the last one, the run delivered
exactly the `k+1` invocation arguments (the first being `v0`), the stream
ends with empty slot and no stored future, and every further pull returns
`Ready(None)` with no events — in particular the step function is never
invoked again. -/
theorem claim2_step_none_terminates (call : F → T → F × Fut)
    (pollFut : Fut → Poll (Option T) × Fut) (v0 : T) (succ : F) (N k : Nat)
    (a : T)
    (hk : (runResolved call pollFut (some v0) succ N)[k]? = some (a, none)) :
    (runResolved call pollFut (some v0) succ N).length = k + 1
    ∧ runDelivered call pollFut (some v0) succ N
        = (runResolved call pollFut (some v0) succ N).map Prod.fst
    ∧ (runDelivered call pollFut (some v0) succ N)[0]? = some v0
    ∧ (runDelivered call pollFut (some v0) succ N).length = k + 1
    ∧ (runEnd call pollFut (some v0) succ N).slot = none
    ∧ (runEnd call pollFut (some v0) succ N).future = none
    ∧ (∀ m, pulls call pollFut m (runEnd call pollFut (some v0) succ N)
        = (List.replicate m (([] : List (Event T)), Poll.ready none),
           runEnd call pollFut (some v0) succ N)) := by
  obtain ⟨g1, g2, g3, -⟩ :=
    pulls_spec call pollFut N (successors (some v0) succ) none (good_init _ _)
  have g1' : Good (runEnd call pollFut (some v0) succ N)
      (resolvedAux none (trace (runRecs call pollFut (some v0) succ N))).2 := g1
  obtain ⟨hchain, hend⟩ := g3 v0 rfl
  have hlen : (runResolved call pollFut (some v0) succ N).length = k + 1 :=
    chained_none_last hchain k a hk
  have hlast : (runResolved call pollFut (some v0) succ N).getLast?
      = some (a, none) := by
    rw [List.getLast?_eq_getElem?, hlen]
    simpa using hk
  have hslotF : (runEnd call pollFut (some v0) succ N).slot = none := by
    have := chainEnd_eq_last v0 _ _ hlast
    exact hend.trans this
  have hfutF : (runEnd call pollFut (some v0) succ N).future = none := by
    rcases hpf : (resolvedAux none
        (trace (runRecs call pollFut (some v0) succ N))).2 with _ | b
    · rw [hpf] at g1'
      exact Option.not_isSome_iff_eq_none.mp (by simp [g1'.1])
    · exact absurd (hslotF.symm.trans (g1'.2 b hpf)) (by simp)
  have hhead : (runDelivered call pollFut (some v0) succ N)[0]? = some v0 := by
    have hlen0 : 0 < (runResolved call pollFut (some v0) succ N).length := by
      omega
    have hget : (runResolved call pollFut (some v0) succ N)[0]?
        = some ((runResolved call pollFut (some v0) succ N)[0]) :=
      List.getElem?_eq_getElem hlen0
    have hmap : runDelivered call pollFut (some v0) succ N
        = (runResolved call pollFut (some v0) succ N).map Prod.fst := g2
    rw [hmap, List.getElem?_map, hget]
    exact congrArg some (chained_head hchain hget)
  refine ⟨hlen, g2, hhead, ?_, hslotF, hfutF, ?_⟩
  · have hmap : runDelivered call pollFut (some v0) succ N
        = (runResolved call pollFut (some v0) succ N).map Prod.fst := g2
    rw [hmap, List.length_map, hlen]
  · exact terminal_forever call pollFut _ hslotF

/-- C3.  A stream constructed with seed `None` answers every pull (the
first and all later ones) with `Ready(None)`, never changes state, and the
step function is never invoked. -/
theorem claim3_empty_seed (call : F → T → F × Fut)
    (pollFut : Fut → Poll (Option T) × Fut) (succ : F) (n : Nat) :
    pulls call pollFut n (successors none succ)
      = (List.replicate n (([] : List (Event T)), Poll.ready none),
         successors none succ)
    ∧ stepCount (trace (runRecs call pollFut none succ n)) = 0 := by
  have h := terminal_forever call pollFut (successors none succ) rfl n
  refine ⟨h, ?_⟩
  have : runRecs call pollFut none succ n
      = List.replicate n (([] : List (Event T)), Poll.ready none) := by
    unfold runRecs
    rw [h]
  rw [this, trace_replicate]
  exact stepCount_nil

/-- C4 counterexample.  With seed `some 10` and a step whose future
suspends once, the very first `poll_next` returns `Pending` (not
`Ready(Some 10)`) and does invoke the step function (with argument `10`). -/
theorem claim4_cex :
    (poll_next dcall dpoll (successors (some 10) stepSlow)).2.1 = Poll.pending
    ∧ Event.stepCall 10 ∈ (poll_next dcall dpoll (successors (some 10) stepSlow)).1 := by
  constructor
  · rfl
  · simp [poll_next, successors, dcall, stepSlow, dpoll]

/-- C4 amended.  On the first `poll_next` of a stream seeded with
`some v0`, the step function is invoked with `v0` (its invocation is the
first event), and the result is either `Pending` (if the fresh future
suspends) or `Ready(Some v0)` — never another value and never
`Ready(None)`. -/
theorem claim4_amended (call : F → T → F × Fut)
    (pollFut : Fut → Poll (Option T) × Fut) (v0 : T) (succ : F) :
    (poll_next call pollFut (successors (some v0) succ)).1.head?
        = some (Event.stepCall v0)
    ∧ ((poll_next call pollFut (successors (some v0) succ)).2.1 = Poll.pending
       ∨ (poll_next call pollFut (successors (some v0) succ)).2.1
           = Poll.ready (some v0)) := by
  match hc : call succ v0 with
  | (s, f) =>
    match hp : pollFut f with
    | (Poll.pending, f2) =>
      rw [poll_next_fresh_pending call pollFut rfl rfl hc hp]
      exact ⟨rfl, Or.inl rfl⟩
    | (Poll.ready next, f2) =>
      rw [poll_next_fresh_ready call pollFut rfl rfl hc hp]
      exact ⟨rfl, Or.inr rfl⟩

/-- C5 counterexample.  Seed `some 0` with a step that immediately returns
`Some 1` on `0` and `None` otherwise, driven for 3 pulls: two elements are
delivered (`0` and `1`), termination has been observed (the third pull
returned `Ready(None)`), yet the step function was invoked twice — not
`2 + 1` times as the claim requires after termination. -/
theorem claim5_cex :
    runDelivered dcall dpoll (some 0) stepOnce 3 = [0, 1]
    ∧ (runRecs dcall dpoll (some 0) stepOnce 3).getLast?
        = some ([], Poll.ready none)
    ∧ stepCount (trace (runRecs dcall dpoll (some 0) stepOnce 3)) = 2
    ∧ stepCount (trace (runRecs dcall dpoll (some 0) stepOnce 3))
        ≠ (runDelivered dcall dpoll (some 0) stepOnce 3).length + 1 := by
  exact ⟨rfl, rfl, rfl, by decide⟩

/-- C5 amended.  For every seed, step function and number of pulls, the
number of step invocations equals the number of delivered elements plus one
if (and only if) a step future is still stored: exactly one invocation per
delivered element (the seed included), plus one for an invocation still in
flight.  In particular, once the stream has terminated (no future stored),
the count equals the number of delivered elements. -/
theorem claim5_amended (call : F → T → F × Fut)
    (pollFut : Fut → Poll (Option T) × Fut) (first : Option T) (succ : F)
    (N : Nat) :
    stepCount (trace (runRecs call pollFut first succ N))
      = (runDelivered call pollFut first succ N).length
        + (if (runEnd call pollFut first succ N).future.isSome
           then 1 else 0) := by
  have hcount := pulls_count call pollFut N (successors first succ) none
    (good_init _ _)
  obtain ⟨g1, g2, -, -⟩ :=
    pulls_spec call pollFut N (successors first succ) none (good_init _ _)
  have g1' : Good (runEnd call pollFut first succ N)
      (resolvedAux none (trace (runRecs call pollFut first succ N))).2 := g1
  have hmap : (runDelivered call pollFut first succ N).length
      = (resolvedAux none (trace (runRecs call pollFut first succ N))).1.length := by
    have : runDelivered call pollFut first succ N
        = ((resolvedAux none (trace (runRecs call pollFut first succ N))).1.map
            Prod.fst) := g2
    rw [this, List.length_map]
  have hiff : (runEnd call pollFut first succ N).future.isSome
      = (resolvedAux none (trace (runRecs call pollFut first succ N))).2.isSome := by
    rcases hpf : (resolvedAux none
        (trace (runRecs call pollFut first succ N))).2 with _ | b
    · rw [hpf] at g1'
      have hnone : (runEnd call pollFut first succ N).future = none :=
        Option.not_isSome_iff_eq_none.mp (by simp [g1'.1])
      rw [hnone]
      rfl
    · rw [hpf] at g1'
      have hsome : (runEnd call pollFut first succ N).future.isSome :=
        g1'.1.mpr (by simp)
      rw [hsome]
      simp
  rw [hmap, hiff]
  simpa using hcount

/-- C6.  The freshly constructed stream satisfies the invariant (an empty
slot implies no stored future, equivalently a stored future implies a
stored slot value), and every `poll_next` call from a state satisfying it
returns a state satisfying it again, in both phrasings. -/
theorem claim6_invariant (call : F → T → F × Fut)
    (pollFut : Fut → Poll (Option T) × Fut) (first : Option T) (succ : F) :
    Inv (successors first succ : Successors F Fut T)
    ∧ (∀ st : Successors F Fut T, Inv st →
        Inv (poll_next call pollFut st).2.2
        ∧ ((poll_next call pollFut st).2.2.future.isSome
            → (poll_next call pollFut st).2.2.slot.isSome)) := by
  constructor
  · intro _; rfl
  · intro st hinv
    match hslot : st.slot with
    | none =>
      rw [poll_next_slot_none call pollFut hslot]
      refine ⟨hinv, ?_⟩
      rw [hinv hslot]
      simp
    | some x =>
      match hfut : st.future with
      | none =>
        match hc : call st.successor x with
        | (s, f) =>
          match hp : pollFut f with
          | (Poll.pending, f2) =>
            rw [poll_next_fresh_pending call pollFut hslot hfut hc hp]
            exact ⟨fun h => by simp [hslot] at h, fun _ => by simp [hslot]⟩
          | (Poll.ready next, f2) =>
            rw [poll_next_fresh_ready call pollFut hslot hfut hc hp]
            exact ⟨fun _ => rfl, fun h => by simp at h⟩
      | some f =>
        match hp : pollFut f with
        | (Poll.pending, f2) =>
          rw [poll_next_stored_pending call pollFut hslot hfut hp]
          exact ⟨fun h => by simp [hslot] at h, fun _ => by simp [hslot]⟩
        | (Poll.ready next, f2) =>
          rw [poll_next_stored_ready call pollFut hslot hfut hp]
          exact ⟨fun _ => rfl, fun h => by simp at h⟩

/-- C7.  From a state with a stored slot value and a stored future whose
poll reports `Pending`: `poll_next` returns `Pending`, the slot is
unchanged, the (advanced) future remains stored, and no step invocation
happened; the next `poll_next` invokes no step function either — it polls
the retained future again (its poll is the next call's first event). -/
theorem claim7_pending_frame (call : F → T → F × Fut)
    (pollFut : Fut → Poll (Option T) × Fut) (st : Successors F Fut T)
    (v : T) (f f2 : Fut)
    (hs : st.slot = some v) (hf : st.future = some f)
    (hp : pollFut f = (Poll.pending, f2)) :
    poll_next call pollFut st
        = ([Event.futPoll Poll.pending], Poll.pending,
           { st with future := some f2 })
    ∧ (∀ a, Event.stepCall a ∉
        (poll_next call pollFut { st with future := some f2 }).1)
    ∧ (poll_next call pollFut { st with future := some f2 }).1.head?
        = some (Event.futPoll (pollFut f2).1) := by
  refine ⟨poll_next_stored_pending call pollFut hs hf hp, ?_, ?_⟩
  all_goals {
    match hp2 : pollFut f2 with
    | (Poll.pending, f3) =>
      simp [poll_next_stored_pending call pollFut
        (show ({ st with future := some f2 } : Successors F Fut T).slot = some v
          from hs) rfl hp2]
    | (Poll.ready next, f3) =>
      simp [poll_next_stored_ready call pollFut
        (show ({ st with future := some f2 } : Successors F Fut T).slot = some v
          from hs) rfl hp2]
  }

/-- C9.  User faults propagate unchanged: a panic while constructing the
step future leaves the state exactly as it was (no future stored, slot
unchanged); a panic while polling the stored future — whether it had just
been constructed or was retained from an earlier pull — leaves the future
stored and the slot unchanged. -/
theorem claim9_fault_propagation (callE : F → T → Option (F × Fut))
    (pollFutE : Fut → Option (Poll (Option T) × Fut)) :
    (∀ (st : Successors F Fut T) (x : T), st.slot = some x →
        st.future = none → callE st.successor x = none →
        poll_nextE callE pollFutE st = Outcome.fault st)
    ∧ (∀ (st : Successors F Fut T) (x : T) (f : Fut), st.slot = some x →
        st.future = some f → pollFutE f = none →
        poll_nextE callE pollFutE st = Outcome.fault st)
    ∧ (∀ (st : Successors F Fut T) (x : T) (s : F) (f : Fut),
        st.slot = some x → st.future = none →
        callE st.successor x = some (s, f) → pollFutE f = none →
        poll_nextE callE pollFutE st
          = Outcome.fault { st with successor := s, future := some f }) := by
  refine ⟨?_, ?_, ?_⟩
  · intro st x hs hf hc
    simp [poll_nextE, hs, hf, hc]
  · intro st x f hs hf hp
    simp [poll_nextE, hs, hf, hp]
  · intro st x s f hs hf hc hp
    simp [poll_nextE, hs, hf, hc, hp]

/-- C10.  The two `unwrap` calls of `poll_next` never panic, from any state
whatsoever: the slot `unwrap` is guarded by the early `Ready(None)` return,
and the future `unwrap` always finds the future that the preceding block
guarantees to be stored. -/
theorem claim10_unwraps_never_panic (callE : F → T → Option (F × Fut))
    (pollFutE : Fut → Option (Poll (Option T) × Fut))
    (st : Successors F Fut T) :
    (poll_nextE callE pollFutE st).isUnwrapFailed = false := by
  obtain ⟨succ, fut, slot⟩ := st
  match slot with
  | none => rfl
  | some x =>
    match fut with
    | none =>
      match hc : callE succ x with
      | none => simp [poll_nextE, hc, Outcome.isUnwrapFailed]
      | some (s, f) =>
        match hp : pollFutE f with
        | none => simp [poll_nextE, hc, hp, Outcome.isUnwrapFailed]
        | some (Poll.pending, f2) =>
            simp [poll_nextE, hc, hp, Outcome.isUnwrapFailed]
        | some (Poll.ready next, f2) =>
            simp [poll_nextE, hc, hp, Outcome.isUnwrapFailed]
    | some f =>
      match hp : pollFutE f with
      | none => simp [poll_nextE, hp, Outcome.isUnwrapFailed]
      | some (Poll.pending, f2) => simp [poll_nextE, hp, Outcome.isUnwrapFailed]
      | some (Poll.ready next, f2) => simp [poll_nextE, hp, Outcome.isUnwrapFailed]

/-! ## C8: future identity and lifetime -/

@[simp]
theorem globalizeAux_nil (live : Option Nat) (nx : Nat) :
    globalizeAux live nx ([] : List (Event T)) = ([], live, nx) := rfl

@[simp]
theorem globalizeAux_stepCall (live : Option Nat) (nx : Nat) (a : T)
    (es : List (Event T)) :
    globalizeAux live nx (Event.stepCall a :: es)
      = (GEvent.create nx :: (globalizeAux (some nx) (nx + 1) es).1,
         (globalizeAux (some nx) (nx + 1) es).2) := rfl

@[simp]
theorem globalizeAux_futPoll (live : Option Nat) (nx : Nat)
    (r : Poll (Option T)) (es : List (Event T)) :
    globalizeAux live nx (Event.futPoll r :: es)
      = (GEvent.fpoll (live.getD 0) r :: (globalizeAux live nx es).1,
         (globalizeAux live nx es).2) := rfl

@[simp]
theorem globalizeAux_futDrop (live : Option Nat) (nx : Nat)
    (es : List (Event T)) :
    globalizeAux live nx (Event.futDrop :: es)
      = (GEvent.fdrop (live.getD 0) :: (globalizeAux none nx es).1,
         (globalizeAux none nx es).2) := rfl

@[simp]
theorem creates_nil : creates ([] : List (GEvent T)) = 0 := rfl

@[simp]
theorem creates_create (i : Nat) (l : List (GEvent T)) :
    creates (GEvent.create i :: l) = creates l + 1 := by
  simp [creates, List.countP_cons]

@[simp]
theorem creates_fpoll (i : Nat) (r : Poll (Option T)) (l : List (GEvent T)) :
    creates (GEvent.fpoll i r :: l) = creates l := by
  simp [creates, List.countP_cons]

@[simp]
theorem creates_fdrop (i : Nat) (l : List (GEvent T)) :
    creates (GEvent.fdrop i :: l) = creates l := by
  simp [creates, List.countP_cons]

@[simp]
theorem fdrops_nil : fdrops ([] : List (GEvent T)) = 0 := rfl

@[simp]
theorem fdrops_create (i : Nat) (l : List (GEvent T)) :
    fdrops (GEvent.create i :: l) = fdrops l := by
  simp [fdrops, List.countP_cons]

@[simp]
theorem fdrops_fpoll (i : Nat) (r : Poll (Option T)) (l : List (GEvent T)) :
    fdrops (GEvent.fpoll i r :: l) = fdrops l := by
  simp [fdrops, List.countP_cons]

@[simp]
theorem fdrops_fdrop (i : Nat) (l : List (GEvent T)) :
    fdrops (GEvent.fdrop i :: l) = fdrops l + 1 := by
  simp [fdrops, List.countP_cons]

theorem sublist_cons_elim {α : Type} {x : α} {p l : List α}
    (h : List.Sublist p (x :: l)) :
    List.Sublist p l ∨ ∃ q, p = x :: q ∧ List.Sublist q l := by
  cases h with
  | cons _ h => exact Or.inl h
  | cons₂ _ h => exact Or.inr ⟨_, rfl, h⟩

theorem noRepoll_nil : NoRepoll ([] : List (GEvent T)) := by
  intro id r res h
  simpa using h.length_le

/-- Consing any event that is not a ready poll preserves `NoRepoll`. -/
theorem noRepoll_cons_of_ne (e : GEvent T) (G : List (GEvent T))
    (hne : ∀ id r, e ≠ GEvent.fpoll id (Poll.ready r)) (h : NoRepoll G) :
    NoRepoll (e :: G) := by
  intro id r res hsub
  rcases sublist_cons_elim hsub with h' | ⟨q, heq, hq⟩
  · exact h id r res h'
  · have hhead : GEvent.fpoll id (Poll.ready r) = e := by
      have := congrArg (fun l => l.head?) heq
      simpa using this
    exact hne id r hhead.symm

/-- Consing a ready poll of a future that is never mentioned again
preserves `NoRepoll`. -/
theorem noRepoll_cons_ready (i : Nat) (rv : Option T) (G : List (GEvent T))
    (hdead : ∀ res, GEvent.fpoll i res ∉ G) (h : NoRepoll G) :
    NoRepoll (GEvent.fpoll i (Poll.ready rv) :: G) := by
  intro id r res hsub
  rcases sublist_cons_elim hsub with h' | ⟨q, heq, hq⟩
  · exact h id r res h'
  · obtain ⟨h1, h2⟩ := List.cons_eq_cons.mp heq
    obtain rfl : id = i := by
      have := congrArg gid h1
      simpa [gid] using this
    subst h2
    exact hdead res (List.singleton_sublist.mp hq)

theorem aliveBoundFrom_nil (a : Nat) (ha : a ≤ 1) :
    AliveBoundFrom a ([] : List (GEvent T)) := by
  intro k
  simp
  omega

theorem aliveBoundFrom_cons_create (j : Nat) (l : List (GEvent T))
    (h : AliveBoundFrom 1 l) : AliveBoundFrom 0 (GEvent.create j :: l) := by
  intro k
  match k with
  | 0 => simp
  | k + 1 =>
    have := h k
    simp only [List.take_succ_cons, creates_create, fdrops_create] at this ⊢
    omega

theorem aliveBoundFrom_cons_fpoll (a i : Nat) (r : Poll (Option T))
    (l : List (GEvent T)) (h : AliveBoundFrom a l) :
    AliveBoundFrom a (GEvent.fpoll i r :: l) := by
  intro k
  match k with
  | 0 =>
    have h0 := h 0
    simp only [List.take_zero, creates_nil, fdrops_nil] at h0 ⊢
    omega
  | k + 1 =>
    have := h k
    simp only [List.take_succ_cons, creates_fpoll, fdrops_fpoll] at this ⊢
    omega

theorem aliveBoundFrom_cons_fdrop (i : Nat) (l : List (GEvent T))
    (h : AliveBoundFrom 0 l) : AliveBoundFrom 1 (GEvent.fdrop i :: l) := by
  intro k
  match k with
  | 0 => simp
  | k + 1 =>
    have := h k
    simp only [List.take_succ_cons, creates_fdrop, fdrops_fdrop] at this ⊢
    omega

/-- The globalized trace of any run is well formed: by induction over the
pulls, with the scanner state coupled to the stream state. -/
theorem pulls_traceOk (call : F → T → F × Fut)
    (pollFut : Fut → Poll (Option T) × Fut) :
    ∀ (n : Nat) (st : Successors F Fut T) (live : Option Nat) (nx : Nat),
      (live.isSome ↔ st.future.isSome) → (∀ i, live = some i → i < nx) →
      TraceOk live nx (globalizeAux live nx (trace (pulls call pollFut n st).1)).1 := by
  intro n
  induction n with
  | zero =>
    intro st live nx hlive hnx
    show TraceOk live nx []
    refine ⟨noRepoll_nil, ?_, by simp⟩
    apply aliveBoundFrom_nil
    rcases live with _ | i
    · exact Nat.zero_le 1
    · exact Nat.le_refl 1
  | succ n ih =>
    intro st live nx hlive hnx
    match hslot : st.slot with
    | none =>
      rw [pulls_succ, poll_next_slot_none call pollFut hslot]
      simpa [trace_cons] using ih st live nx hlive hnx
    | some x =>
      match hfut : st.future with
      | none =>
        have hliven : live = none := by
          rcases hl : live with _ | i
          · rfl
          · have := hlive.mp (by simp [hl])
            rw [hfut] at this
            simp at this
        subst hliven
        match hc : call st.successor x with
        | (s, f) =>
          match hp : pollFut f with
          | (Poll.pending, f2) =>
            rw [pulls_succ, poll_next_fresh_pending call pollFut hslot hfut hc hp]
            set st' : Successors F Fut T :=
              { st with successor := s, future := some f2 } with hst'
            obtain ⟨ih1, ih2, ih3⟩ := ih st' (some nx) (nx + 1)
              (by simp [hst']) (fun i hi => by
                obtain rfl : nx = i := Option.some_inj.mp hi
                omega)
            simp only [trace_cons, List.cons_append, List.nil_append,
              globalizeAux_stepCall, globalizeAux_futPoll, Option.getD_some]
            refine ⟨?_, ?_, ?_⟩
            · exact noRepoll_cons_of_ne _ _ (by intro id r h; simp at h)
                (noRepoll_cons_of_ne _ _ (by intro id r h; simp at h) ih1)
            · have ih2' : AliveBoundFrom 1
                  (globalizeAux (some nx) (nx + 1)
                    (trace (pulls call pollFut n st').1)).1 := by
                simpa using ih2
              simpa using
                aliveBoundFrom_cons_create nx _
                  (aliveBoundFrom_cons_fpoll 1 nx Poll.pending _ ih2')
            · intro e he
              simp only [List.mem_cons] at he
              rcases he with rfl | rfl | he
              · exact Or.inr (by simp [gid])
              · exact Or.inr (by simp [gid])
              · rcases ih3 e he with h | h
                · have hge : gid e = nx := (Option.some_inj.mp h).symm
                  exact Or.inr (le_of_eq hge.symm)
                · exact Or.inr (by omega)
          | (Poll.ready next, f2) =>
            rw [pulls_succ, poll_next_fresh_ready call pollFut hslot hfut hc hp]
            set st' : Successors F Fut T :=
              { st with successor := s, future := none, slot := next } with hst'
            obtain ⟨ih1, ih2, ih3⟩ := ih st' none (nx + 1)
              (by simp [hst']) (fun i hi => by simp at hi)
            have hdead : ∀ res, GEvent.fpoll nx res ∉
                (GEvent.fdrop nx ::
                  (globalizeAux none (nx + 1)
                    (trace (pulls call pollFut n st').1)).1) := by
              intro res hmem
              simp only [List.mem_cons] at hmem
              rcases hmem with h | h
              · simp at h
              · rcases ih3 _ h with h' | h'
                · simp at h'
                · simp [gid] at h'
            simp only [trace_cons, List.cons_append, List.nil_append,
              globalizeAux_stepCall, globalizeAux_futPoll, globalizeAux_futDrop,
              Option.getD_some]
            refine ⟨?_, ?_, ?_⟩
            · exact noRepoll_cons_of_ne _ _ (by intro id r h; simp at h)
                (noRepoll_cons_ready nx next _ hdead
                  (noRepoll_cons_of_ne _ _ (by intro id r h; simp at h) ih1))
            · have ih2' : AliveBoundFrom 0
                  (globalizeAux none (nx + 1)
                    (trace (pulls call pollFut n st').1)).1 := by
                simpa using ih2
              simpa using
                aliveBoundFrom_cons_create nx _
                  (aliveBoundFrom_cons_fpoll 1 nx (Poll.ready next) _
                    (aliveBoundFrom_cons_fdrop nx _ ih2'))
            · intro e he
              simp only [List.mem_cons] at he
              rcases he with rfl | rfl | rfl | he
              · exact Or.inr (by simp [gid])
              · exact Or.inr (by simp [gid])
              · exact Or.inr (by simp [gid])
              · rcases ih3 e he with h | h
                · simp at h
                · exact Or.inr (by omega)
      | some f =>
        obtain ⟨i, hlivei⟩ : ∃ i, live = some i :=
          Option.isSome_iff_exists.mp (hlive.mpr (by simp [hfut]))
        subst hlivei
        have hinx : i < nx := hnx i rfl
        match hp : pollFut f with
        | (Poll.pending, f2) =>
          rw [pulls_succ, poll_next_stored_pending call pollFut hslot hfut hp]
          set st' : Successors F Fut T := { st with future := some f2 } with hst'
          obtain ⟨ih1, ih2, ih3⟩ := ih st' (some i) nx
            (by simp [hst']) (fun j hj => by
              obtain rfl : i = j := Option.some_inj.mp hj
              exact hinx)
          simp only [trace_cons, List.cons_append, List.nil_append,
            globalizeAux_futPoll, Option.getD_some]
          refine ⟨?_, ?_, ?_⟩
          · exact noRepoll_cons_of_ne _ _ (by intro id r h; simp at h) ih1
          · simpa using aliveBoundFrom_cons_fpoll 1 i Poll.pending _
              (by simpa using ih2)
          · intro e he
            simp only [List.mem_cons] at he
            rcases he with rfl | he
            · exact Or.inl (by simp [gid])
            · exact ih3 e he
        | (Poll.ready next, f2) =>
          rw [pulls_succ, poll_next_stored_ready call pollFut hslot hfut hp]
          set st' : Successors F Fut T :=
            { st with future := none, slot := next } with hst'
          obtain ⟨ih1, ih2, ih3⟩ := ih st' none nx
            (by simp [hst']) (fun j hj => by simp at hj)
          have hdead : ∀ res, GEvent.fpoll i res ∉
              (GEvent.fdrop i ::
                (globalizeAux none nx
                  (trace (pulls call pollFut n st').1)).1) := by
            intro res hmem
            simp only [List.mem_cons] at hmem
            rcases hmem with h | h
            · simp at h
            · rcases ih3 _ h with h' | h'
              · simp at h'
              · simp [gid] at h'
                omega
          simp only [trace_cons, List.cons_append, List.nil_append,
            globalizeAux_futPoll, globalizeAux_futDrop, Option.getD_some]
          refine ⟨?_, ?_, ?_⟩
          · exact noRepoll_cons_ready i next _ hdead
              (noRepoll_cons_of_ne _ _ (by intro id r h; simp at h) ih1)
          · simpa using aliveBoundFrom_cons_fpoll 1 i (Poll.ready next) _
              (aliveBoundFrom_cons_fdrop i _ (by simpa using ih2))
          · intro e he
            simp only [List.mem_cons] at he
            rcases he with rfl | rfl | he
            · exact Or.inl (by simp [gid])
            · exact Or.inl (by simp [gid])
            · rcases ih3 e he with h | h
              · simp at h
              · exact Or.inr h

/-- C8.  Across any run: no future is ever polled after one of its polls
returned `Ready` (the globalized trace has no ready-poll of an id followed
by another poll of the same id); at every point of the trace at most one
future is alive (creations exceed destructions by at most one, and never
the other way); and per call, a future is constructed only when none is
stored, and a call whose poll returned `Ready` clears the future before
returning (its destruction is the call's last event). -/
theorem claim8_at_most_one_future (call : F → T → F × Fut)
    (pollFut : Fut → Poll (Option T) × Fut) (first : Option T) (succ : F)
    (N : Nat) :
    NoRepoll (runGlobal call pollFut first succ N)
    ∧ AtMostOneAlive (runGlobal call pollFut first succ N)
    ∧ (∀ st : Successors F Fut T,
        (∀ a, Event.stepCall a ∈ (poll_next call pollFut st).1 →
          st.future = none)
        ∧ (∀ r, Event.futPoll (Poll.ready r) ∈ (poll_next call pollFut st).1 →
            (poll_next call pollFut st).2.2.future = none
            ∧ (poll_next call pollFut st).1.getLast? = some Event.futDrop)) := by
  obtain ⟨h1, h2, -⟩ := pulls_traceOk call pollFut N (successors first succ)
    none 0 (by simp [successors]) (fun i hi => by simp at hi)
  refine ⟨h1, ?_, ?_⟩
  · intro k
    have h2' := h2 k
    simp only [runGlobal, runRecs]
    simp at h2'
    constructor <;> omega
  · intro st
    match hslot : st.slot with
    | none =>
      rw [poll_next_slot_none call pollFut hslot]
      exact ⟨fun a ha => by simp at ha, fun r hr => by simp at hr⟩
    | some x =>
      match hfut : st.future with
      | none =>
        match hc : call st.successor x with
        | (s, f) =>
          match hp : pollFut f with
          | (Poll.pending, f2) =>
            rw [poll_next_fresh_pending call pollFut hslot hfut hc hp]
            exact ⟨fun a _ => rfl, fun r hr => by simp at hr⟩
          | (Poll.ready next, f2) =>
            rw [poll_next_fresh_ready call pollFut hslot hfut hc hp]
            exact ⟨fun a _ => rfl, fun r _ => ⟨rfl, rfl⟩⟩
      | some f =>
        match hp : pollFut f with
        | (Poll.pending, f2) =>
          rw [poll_next_stored_pending call pollFut hslot hfut hp]
          exact ⟨fun a ha => by simp at ha, fun r hr => by simp at hr⟩
        | (Poll.ready next, f2) =>
          rw [poll_next_stored_ready call pollFut hslot hfut hp]
          exact ⟨fun a ha => by simp at ha, fun r _ => ⟨rfl, rfl⟩⟩

/-! ## Witnesses: the claim theorems applied at concrete inputs -/

theorem claim1_witness :
    (runDelivered dcall dpoll (some 22) stepInc 4)[0]? = some 22
    ∧ (runResolved dcall dpoll (some 22) stepInc 4)[0]? = some (22, some 23) := by
  refine ⟨(claim1_chain dcall dpoll 22 stepInc 4).2.2.1 (by decide), ?_⟩
  exact (claim1_chain dcall dpoll 22 stepInc 4).2.2.2 0 22 23 (by decide) (by decide)

theorem claim2_witness :
    (runResolved dcall dpoll (some 0) stepTrunc 6).length = 4
    ∧ (runDelivered dcall dpoll (some 0) stepTrunc 6)[0]? = some 0
    ∧ (runEnd dcall dpoll (some 0) stepTrunc 6).slot = none
    ∧ pulls dcall dpoll 2 (runEnd dcall dpoll (some 0) stepTrunc 6)
        = (List.replicate 2 ([], Poll.ready none),
           runEnd dcall dpoll (some 0) stepTrunc 6) := by
  have h := claim2_step_none_terminates dcall dpoll 0 stepTrunc 6 3 3 (by decide)
  exact ⟨h.1, h.2.2.1, h.2.2.2.2.1, h.2.2.2.2.2.2 2⟩

theorem claim6_witness :
    Inv (successors (some 0) stepInc :
        Successors (Nat → DFut Nat) (DFut Nat) Nat)
    ∧ Inv (poll_next dcall dpoll (successors (some 0) stepInc)).2.2 := by
  refine ⟨(claim6_invariant dcall dpoll (some 0) stepInc).1, ?_⟩
  exact ((claim6_invariant dcall dpoll (some 0) stepInc).2
    (successors (some 0) stepInc) (fun h => by simp [successors] at h)).1

theorem claim7_witness :
    poll_next dcall dpoll
        ({ successor := stepSlow, future := some (1, some 11), slot := some 10 } :
          Successors (Nat → DFut Nat) (DFut Nat) Nat)
      = ([Event.futPoll Poll.pending], Poll.pending,
         { successor := stepSlow, future := some (0, some 11),
           slot := some 10 }) := by
  exact (claim7_pending_frame dcall dpoll
    { successor := stepSlow, future := some (1, some 11), slot := some 10 }
    10 (1, some 11) (0, some 11) rfl rfl rfl).1

theorem claim8_witness :
    NoRepoll (runGlobal dcall dpoll (some 10) stepSlow 4)
    ∧ AtMostOneAlive (runGlobal dcall dpoll (some 10) stepSlow 4)
    ∧ (successors (some 10) stepSlow :
        Successors (Nat → DFut Nat) (DFut Nat) Nat).future = none := by
  have h := claim8_at_most_one_future dcall dpoll (some 10) stepSlow 4
  exact ⟨h.1, h.2.1,
    (h.2.2 (successors (some 10) stepSlow)).1 10 (by decide)⟩

theorem claim9_witness :
    poll_nextE (fun (_ : Unit) (_ : Nat) => (none : Option (Unit × Unit)))
        (fun _ => none)
        { successor := (), future := none, slot := some 5 }
      = Outcome.fault { successor := (), future := none, slot := some 5 }
    ∧ poll_nextE (fun (_ : Unit) (_ : Nat) => some ((), ()))
        (fun _ => (none : Option (Poll (Option Nat) × Unit)))
        { successor := (), future := some (), slot := some 5 }
      = Outcome.fault { successor := (), future := some (), slot := some 5 }
    ∧ poll_nextE (fun (_ : Unit) (_ : Nat) => some ((), ()))
        (fun _ => (none : Option (Poll (Option Nat) × Unit)))
        { successor := (), future := none, slot := some 5 }
      = Outcome.fault { successor := (), future := some (), slot := some 5 } := by
  refine ⟨?_, ?_, ?_⟩
  · exact (claim9_fault_propagation _ _).1 _ 5 rfl rfl rfl
  · exact (claim9_fault_propagation _ _).2.1 _ 5 () rfl rfl rfl
  · exact (claim9_fault_propagation _ _).2.2 _ 5 () () rfl rfl rfl rfl

end SuccessorsStream
